import Mathlib

/-!
Shallow embedding of the plyfile Go package (src/ply.go): a binary
little-endian PLY reader.  Go strings and files are byte sequences, so
header text and file contents are both modelled as `List Nat` of byte
values; machine integers that stay small and nonnegative (counts,
offsets, cursor positions) are modelled as `Nat`, except where the Go
code compares against negative values (`Seek`), where `Int` is used.
Go panics (nil-pointer dereference, `reflect.Value.Set` type mismatch,
out-of-range slicing) are modelled as `none` / dedicated error values.
-/

/-- Byte list of an ASCII string literal, the way Go views a string. -/
def str (s : String) : List Nat := s.toList.map Char.toNat

/-- Width lookup of the global `propertySizes` map; missing types give 0
(`propertySize` in ply.go). -/
def propertySize (t : List Nat) : Nat :=
  if t = str "char" then 1
  else if t = str "uchar" then 1
  else if t = str "short" then 2
  else if t = str "ushort" then 2
  else if t = str "int" then 4
  else if t = str "uint" then 4
  else if t = str "float" then 4
  else if t = str "double" then 8
  else 0

structure property where
  Type' : List Nat
  Name : List Nat
  Size : Nat
deriving DecidableEq, Repr

structure element where
  Name : List Nat
  Count : Nat
  Properties : List property
deriving DecidableEq, Repr

/-- Sum of the property sizes (`element.PointByteSize` in ply.go). -/
def element.PointByteSize (e : element) : Nat :=
  e.Properties.foldl (fun size p => size + p.Size) 0

structure header where
  Format : List Nat
  Comment : List Nat
  offset : Nat
  Elements : List (Option element)
deriving DecidableEq, Repr

/-- Go regexp `\w` byte class: `[0-9A-Za-z_]`. -/
def isWordByte (b : Nat) : Bool :=
  decide (48 ≤ b ∧ b ≤ 57) || decide (65 ≤ b ∧ b ≤ 90) ||
    decide (97 ≤ b ∧ b ≤ 122) || decide (b = 95)

/-- Go regexp `\d` byte class: `[0-9]`. -/
def isDigitByte (b : Nat) : Bool :=
  decide (48 ≤ b ∧ b ≤ 57)

/-- First submatch of `^format (ascii|binary_little_endian).*` on a line.
The two alternatives start with different bytes, so prefix tests decide
the match. -/
def matchFormat (line : List Nat) : Option (List Nat) :=
  if (str "format ascii").isPrefixOf line then some (str "ascii")
  else if (str "format binary_little_endian").isPrefixOf line then
    some (str "binary_little_endian")
  else none

/-- First submatch of `^comment (.*)` on a line. -/
def matchComment (line : List Nat) : Option (List Nat) :=
  if (str "comment ").isPrefixOf line then some (line.drop 8) else none

/-- Submatches of `^element (\w*) (\d*)`: greedy word run, a space, then a
greedy digit run. -/
def matchElement (line : List Nat) : Option (List Nat × List Nat) :=
  if (str "element ").isPrefixOf line then
    let rest := line.drop 8
    let name := rest.takeWhile isWordByte
    match rest.drop name.length with
    | 32 :: rest2 => some (name, rest2.takeWhile isDigitByte)
    | _ => none
  else none

/-- The eight scalar type tokens, in the alternation order of
`regExpProperty`.  No token is a prefix of another, so at most one can
match a given line. -/
def propTypeTokens : List (List Nat) :=
  [str "char", str "uchar", str "short", str "ushort",
   str "int", str "uint", str "float", str "double"]

/-- Submatches of
`^property (char|uchar|short|ushort|int|uint|float|double) (\w*)`. -/
def matchProperty (line : List Nat) : Option (List Nat × List Nat) :=
  if (str "property ").isPrefixOf line then
    let rest := line.drop 9
    match propTypeTokens.find? (fun tk => tk.isPrefixOf rest) with
    | some tk =>
      match rest.drop tk.length with
      | 32 :: rest2 => some (tk, rest2.takeWhile isWordByte)
      | _ => none
    | none => none
  else none

/-- Value of a digit string. -/
def natOfDigits (ds : List Nat) : Nat :=
  ds.foldl (fun a d => a * 10 + (d - 48)) 0

/-- `count, _ := strconv.Atoi(...)` on a `\d*` submatch: the empty string
errors and leaves 0; a value beyond int64 range errors and leaves the
clamped maximum. -/
def atoiOrZero (ds : List Nat) : Nat :=
  if ds = [] then 0 else min (natOfDigits ds) (2 ^ 63 - 1)

/-- `strings.Split(s, "\n")` on bytes. -/
def splitOnNL : List Nat → List (List Nat)
  | [] => [[]]
  | b :: rest =>
    if b = 10 then [] :: splitOnNL rest
    else
      match splitOnNL rest with
      | [] => [[b]]
      | l :: ls => (b :: l) :: ls

structure parseState where
  Format : List Nat
  Comment : List Nat
  Elements : List (Option element)
  curr : Option element
deriving DecidableEq, Repr

/-- One iteration of the line loop in `parseHeader` (ply.go).  `none`
models the nil-pointer panic: a `property` line while no element is
open dereferences the nil `currElement`.  The `end_header` line appends
`currElement` even when it is nil. -/
def parseLine (st : parseState) (line : List Nat) : Option parseState :=
  match matchFormat line with
  | some tok => some { st with Format := tok }
  | none =>
  match matchComment line with
  | some c => some { st with Comment := c }
  | none =>
  match matchElement line with
  | some (name, digits) =>
    some { st with
      Elements := match st.curr with
        | some e => st.Elements ++ [some e]
        | none => st.Elements
      curr := some { Name := name, Count := atoiOrZero digits, Properties := [] } }
  | none =>
  match matchProperty line with
  | some (tk, name) =>
    match st.curr with
    | none => none
    | some e =>
      some { st with curr := some { e with
        Properties := e.Properties ++ [{ Type' := tk, Name := name, Size := propertySize tk }] } }
  | none =>
  if line = str "end_header" then
    some { st with Elements := st.Elements ++ [st.curr] }
  else some st

def parseHeaderLines : parseState → List (List Nat) → Option parseState
  | st, [] => some st
  | st, l :: ls =>
    match parseLine st l with
    | none => none
    | some st2 => parseHeaderLines st2 ls

/-- `parseHeader` (ply.go): split the accumulated header text on newlines
and fold the line loop; `off` is the body offset `readHeader` fixed. -/
def parseHeader (headerStr : List Nat) (off : Nat) : Option header :=
  match parseHeaderLines ⟨[], [], [], none⟩ (splitOnNL headerStr) with
  | none => none
  | some st => some { Format := st.Format, Comment := st.Comment,
                      offset := off, Elements := st.Elements }

def endHeaderStr : List Nat := str "end_header"

/-- `strings.Index`: byte index of the first occurrence of `pat`. -/
def findSub (pat : List Nat) : List Nat → Option Nat
  | [] => if pat.isPrefixOf ([] : List Nat) then some 0 else none
  | b :: rest =>
    if pat.isPrefixOf (b :: rest) then some 0
    else (findSub pat rest).map (fun k => k + 1)

inductive rdErr where
  | failedRead
  | slicePanic
  | invalidPly
deriving DecidableEq, Repr

/-- Chunked accumulation loop of `readHeader` (ply.go): read up to 100
bytes, append, search the whole accumulated text for `end_header`; a
read at end of stream returns `io.EOF` giving the "failed read header"
error.  On a hit the text is truncated at `pos + 11`; Go slicing panics
if the accumulated text is shorter than that. -/
def readHeaderLoop (remaining acc : List Nat) : Except rdErr (List Nat × Nat) :=
  match remaining with
  | [] => .error .failedRead
  | b :: rest =>
    let acc2 := acc ++ (b :: rest).take 100
    match findSub endHeaderStr acc2 with
    | some pos =>
      if pos + 11 ≤ acc2.length then .ok (acc2.take (pos + 11), pos + 11)
      else .error .slicePanic
    | none => readHeaderLoop (rest.drop 99) acc2
termination_by remaining.length
decreasing_by
  simp only [List.length_drop, List.length_cons]
  omega

/-- `readHeader` (ply.go): run the loop, then report "invalid ply file"
on an empty accumulated header. -/
def readHeader (file : List Nat) : Except rdErr (List Nat × Nat) :=
  match readHeaderLoop file [] with
  | .error e => .error e
  | .ok (s, off) => if s = [] then .error .invalidPly else .ok (s, off)

inductive openErr where
  | rd (e : rdErr)
  | parsePanic
  | unsupportedFormat
deriving DecidableEq, Repr

/-- `Open` (ply.go) abstracted over the file bytes: read and parse the
header, then insist on the `binary_little_endian` format. -/
def OpenBytes (file : List Nat) : Except openErr header :=
  match readHeader file with
  | .error e => .error (.rd e)
  | .ok (s, off) =>
    match parseHeader s off with
    | none => .error .parsePanic
    | some h =>
      if h.Format = str "binary_little_endian" then .ok h
      else .error .unsupportedFormat

/-- The Go type a scalar property decodes through in `ReadNext`'s switch:
`char`/`uchar` through `byte`, `short` through `int16`, and so on. -/
inductive goTy where
  | u8
  | i16
  | u16
  | i32
  | u32
  | f32
  | f64
deriving DecidableEq, Repr

def goTy.width : goTy → Nat
  | .u8 => 1
  | .i16 => 2
  | .u16 => 2
  | .i32 => 4
  | .u32 => 4
  | .f32 => 4
  | .f64 => 8

/-- Branch selection of the `switch prop.Type` in `ReadNext`; an
unrecognized type token hits no case and stores nothing. -/
def propGoTy (t : List Nat) : Option goTy :=
  if t = str "char" then some .u8
  else if t = str "uchar" then some .u8
  else if t = str "short" then some .i16
  else if t = str "ushort" then some .u16
  else if t = str "int" then some .i32
  else if t = str "uint" then some .u32
  else if t = str "float" then some .f32
  else if t = str "double" then some .f64
  else none

/-- One tagged field of a caller-supplied target struct: the `ply` tag,
the field's Go type, and the field's current contents as the
little-endian bit pattern of its storage (floats included: `memcpy`
only ever moves raw bytes, never interprets them). -/
structure field where
  tag : List Nat
  ty : goTy
  val : Nat
deriving DecidableEq, Repr

/-- Little-endian value of a byte list (how `memcpy` lays bytes into an
integer's storage). -/
def leVal : List Nat → Nat
  | [] => 0
  | b :: rest => b % 256 + 256 * leVal rest

/-- Inner field loop of `ReadNext`: every field whose `ply` tag equals
the property name receives the decoded value.  `reflect.Value.Set`
panics (`none`) when the field's type differs from the type the switch
decoded — it performs no conversion. -/
def setFields (t : List field) (name : List Nat) (ty : goTy) (v : Nat) :
    Option (List field) :=
  match t with
  | [] => some []
  | f :: rest =>
    if f.tag = name then
      if f.ty = ty then (setFields rest name ty v).map (fun r => { f with val := v } :: r)
      else none
    else (setFields rest name ty v).map (fun r => f :: r)

/-- Outer property loop of `ReadNext`: walk the properties in order,
slicing `prop.Size` bytes at the running offset (Go panics, `none`, if
the slice runs past the buffer), decoding them through the switch and
storing into every matching field; the offset advances whether or not
any field matched. -/
def decodeProps : List property → List Nat → Nat → List field → Option (List field)
  | [], _, _, t => some t
  | p :: rest, buf, off, t =>
    if off + p.Size ≤ buf.length then
      let bytes := (buf.drop off).take p.Size
      let step :=
        match propGoTy p.Type' with
        | some ty => setFields t p.Name ty (leVal bytes % 2 ^ (8 * ty.width))
        | none => some t
      match step with
      | none => none
      | some t2 => decodeProps rest buf (off + p.Size) t2
    else none

structure elementReader where
  pos : Nat
  offset : Nat
  elem : element
deriving DecidableEq, Repr

inductive readErr where
  | eofErr
  | panicked
deriving DecidableEq, Repr

/-- The zero-initialized record buffer after `make([]byte, size)` and one
`file.Read`: the bytes available at `pos` (at most `size` of them)
followed by the untouched zero fill. -/
def recordBuf (file : List Nat) (pos size : Nat) : List Nat :=
  let bytes := (file.drop pos).take size
  bytes ++ List.replicate (size - bytes.length) 0

/-- `ElementReader.ReadNext` (ply.go).  Returns the reader, the target
and the result, mirroring the in-place mutation: at `pos ≥ Count` the
call fails with `io.EOF` before touching the file; a `Read` issued at
or past end of file returns `io.EOF`; otherwise the single `Read`
delivers whatever bytes remain (a short read is not detected) and the
property loop decodes the zero-padded buffer; on success the cursor
advances and the new cursor is returned. -/
def elementReader.ReadNext (file : List Nat) (r : elementReader) (t : List field) :
    elementReader × List field × Except readErr Nat :=
  let size := r.elem.PointByteSize
  if r.elem.Count ≤ r.pos then (r, t, .error .eofErr)
  else if file.length ≤ r.offset + r.pos * size then (r, t, .error .eofErr)
  else
    match decodeProps r.elem.Properties (recordBuf file (r.offset + r.pos * size) size) 0 t with
    | none => (r, t, .error .panicked)
    | some t2 => ({ r with pos := r.pos + 1 }, t2, .ok (r.pos + 1))

/-- `ElementReader.Seek` (ply.go): accept `0 ≤ pos ≤ Count`, reject the
rest leaving the cursor unchanged. -/
def elementReader.Seek (r : elementReader) (pos : Int) : Option elementReader :=
  if pos < 0 ∨ (r.elem.Count : Int) < pos then none
  else some { r with pos := pos.toNat }

/-- `ElementReader.Reset` (ply.go). -/
def elementReader.Reset (r : elementReader) : Option elementReader :=
  r.Seek 0

inductive raErr where
  | seekFail
  | rnErr (e : readErr)
deriving DecidableEq, Repr

/-- `ElementReader.ReadAt` (ply.go): save the cursor, seek, read, and
restore the saved cursor only on the success path. -/
def elementReader.ReadAt (file : List Nat) (r : elementReader) (pos : Int)
    (t : List field) : elementReader × List field × Except raErr Unit :=
  match r.Seek pos with
  | none => (r, t, .error .seekFail)
  | some r1 =>
    match r1.ReadNext file t with
    | (r2, t2, .error e) => (r2, t2, .error (.rnErr e))
    | (r2, t2, .ok _) => ({ r2 with pos := r.pos }, t2, .ok ())

/-- Scan of `PlyFile.Has` (ply.go) over the element pointer list; a nil
entry is dereferenced for its name, which panics (`none`). -/
def hasElem : List (Option element) → List Nat → Option Bool
  | [], _ => some false
  | none :: _, _ => none
  | some e :: rest, name => if e.Name = name then some true else hasElem rest name

def header.Has (h : header) (name : List Nat) : Option Bool :=
  hasElem h.Elements name

/-- Scan of `PlyFile.getElement` (ply.go): first element with the name,
Go nil (`some none`) when absent, panic (`none`) on a nil entry. -/
def getElementList : List (Option element) → List Nat → Option (Option element)
  | [], _ => some none
  | none :: _, _ => none
  | some e :: rest, name =>
    if e.Name = name then some (some e) else getElementList rest name

def header.getElement (h : header) (name : List Nat) : Option (Option element) :=
  getElementList h.Elements name

/-- Accumulation loop of `PlyFile.getElementOffset` (ply.go): add
`Count * PointByteSize` of every element before the first name match. -/
def getElementOffsetList : List (Option element) → List Nat → Option Nat
  | [], _ => some 0
  | none :: _, _ => none
  | some e :: rest, name =>
    if e.Name = name then some 0
    else (getElementOffsetList rest name).map (fun k => e.Count * e.PointByteSize + k)

/-- `PlyFile.getElementOffset` (ply.go): `-1` for an unknown name, the
accumulated byte offset otherwise. -/
def header.getElementOffset (h : header) (name : List Nat) : Option Int :=
  match h.Has name with
  | none => none
  | some false => some (-1)
  | some true => (getElementOffsetList h.Elements name).map Int.ofNat

/-- `PlyFile.GetElementReader` (ply.go): `some none` is the
"unknown element" error, outer `none` a panic inside `Has`. -/
def header.GetElementReader (h : header) (name : List Nat) :
    Option (Option elementReader) :=
  match h.Has name with
  | none => none
  | some false => some none
  | some true =>
    match getElementOffsetList h.Elements name, getElementList h.Elements name with
    | some k, some (some e) => some (some { pos := 0, offset := h.offset + k, elem := e })
    | _, _ => none

/-- Header text with two format lines: the parser keeps the second token. -/
def twoFormatHeader : List Nat :=
  str "format ascii\nformat binary_little_endian\nend_header"

/-- Single-property element whose `uchar red` is bound by the target to a
wider `uint16` field. -/
def widenElem : element :=
  { Name := str "v", Count := 1,
    Properties := [{ Type' := str "uchar", Name := str "red", Size := 1 }] }

def widenReader : elementReader :=
  { pos := 0, offset := 0, elem := widenElem }

def widenTarget : List field :=
  [{ tag := str "red", ty := .u16, val := 0 }]

/-- Single-property element of record byte size 4 over a 2-byte file. -/
def shortElem : element :=
  { Name := str "v", Count := 1,
    Properties := [{ Type' := str "uint", Name := str "a", Size := 4 }] }

def shortReader : elementReader :=
  { pos := 0, offset := 0, elem := shortElem }

def shortTarget : List field :=
  [{ tag := str "a", ty := .u32, val := 99 }]

/-- Total body byte size of a run of elements: `Count * PointByteSize`
summed in order, the quantity `getElementOffset` accumulates. -/
def elemsByteSize : List element → Nat
  | [] => 0
  | e :: rest => e.Count * e.PointByteSize + elemsByteSize rest

/-- Two-element schema for concrete checks: 2 vertices of 8 bytes each,
then 3 faces of 1 byte each, body starting at byte 100. -/
def vtxElem : element :=
  { Name := str "vertex", Count := 2,
    Properties := [{ Type' := str "float", Name := str "x", Size := 4 },
                   { Type' := str "float", Name := str "y", Size := 4 }] }

def faceElem : element :=
  { Name := str "face", Count := 3,
    Properties := [{ Type' := str "uchar", Name := str "k", Size := 1 }] }

def twoElemHeader : header :=
  { Format := str "binary_little_endian", Comment := [], offset := 100,
    Elements := [some vtxElem, some faceElem] }

/-- Plain recursive sum of property sizes (equal to `PointByteSize`,
which folds from the left). -/
def sumSizes : List property → Nat
  | [] => 0
  | p :: rest => p.Size + sumSizes rest

/-- Does some property of the list bind this tag with a recognized
scalar type?  (Exactly when decoding writes the tagged fields.) -/
def hasMatch (props : List property) (tag : List Nat) : Bool :=
  props.any (fun p => decide (p.Name = tag) && (propGoTy p.Type').isSome)

/-- Value the LAST recognized property with this name stores (property
order is authoritative for offsets, later stores overwrite earlier
ones). -/
def lastMatch : List property → Nat → List Nat → List Nat → Option Nat
  | [], _, _, _ => none
  | p :: rest, off, buf, tag =>
    match lastMatch rest (off + p.Size) buf tag with
    | some v => some v
    | none =>
      if p.Name = tag then
        match propGoTy p.Type' with
        | some ty => some (leVal ((buf.drop off).take p.Size) % 2 ^ (8 * ty.width))
        | none => none
      else none

/-- The tag-and-type signature of a target, which alone decides decode
success or panic. -/
def tagTys (t : List field) : List (List Nat × goTy) :=
  t.map (fun f => (f.tag, f.ty))

/-- Every property a field's tag binds decodes through exactly the
field's Go type: the condition under which `reflect.Set` never
panics. -/
def compat (props : List property) (t : List field) : Prop :=
  ∀ f ∈ t, ∀ p ∈ props, f.tag = p.Name → propGoTy p.Type' = some f.ty

/-- Targets produced by `n` successive `ReadNext` calls, reusing one
target value, as the sequential read loop does. -/
def readNextSeq (file : List Nat) : elementReader → List field → Nat →
    Option (List (List field))
  | _, _, 0 => some []
  | r, t, n + 1 =>
    match r.ReadNext file t with
    | (r2, t2, .ok _) => (readNextSeq file r2 t2 n).map (fun l => t2 :: l)
    | (_, _, .error _) => none

/-- Targets produced by `ReadAt` at positions `i, i+1, ...`, handing the
same fresh target value to every call. -/
def readAtSeq (file : List Nat) (t0 : List field) : elementReader → Nat → Nat →
    Option (List (List field))
  | _, _, 0 => some []
  | r, i, n + 1 =>
    match r.ReadAt file (i : Int) t0 with
    | (r2, t2, .ok _) => (readAtSeq file t0 r2 (i + 1) n).map (fun l => t2 :: l)
    | (_, _, .error _) => none

/-- Element with one `double x` property, bound below to a narrower
`float32` target field. -/
def mmElem : element :=
  { Name := str "v", Count := 2,
    Properties := [{ Type' := str "double", Name := str "x", Size := 8 }] }

def mmReader : elementReader :=
  { pos := 0, offset := 0, elem := mmElem }

def mmTarget : List field :=
  [{ tag := str "x", ty := .f32, val := 7 }]

/-- Reader over the two-record vertex element, cursor parked at 1 so a
reset is observable. -/
def seqReader : elementReader :=
  { pos := 1, offset := 0, elem := vtxElem }

def seqFile : List Nat := List.range 16

def seqTarget : List field :=
  [{ tag := str "x", ty := .f32, val := 0 },
   { tag := str "y", ty := .f32, val := 0 }]

/-- Checker for `readHeader` results: never the "invalid ply file" error,
and a successful result carries at least the 11 bytes up to and past
the terminator, the terminator occurring inside them. -/
def noInvalidPly : Except rdErr (List Nat × Nat) → Bool
  | .error .invalidPly => false
  | .error _ => true
  | .ok (s, _) => decide (11 ≤ s.length) && (findSub endHeaderStr s).isSome

/-- Checker for `OpenBytes` results: never the "invalid ply file" error. -/
def openNoInvalid : Except openErr header → Bool
  | .error (.rd .invalidPly) => false
  | _ => true

/-- Three 1-byte colour properties; the target below binds `red` and
`blue` but not `green`. -/
def redProp : property := { Type' := str "uchar", Name := str "red", Size := 1 }

def greenProp : property := { Type' := str "uchar", Name := str "green", Size := 1 }

def blueProp : property := { Type' := str "uchar", Name := str "blue", Size := 1 }

def rbTarget : List field :=
  [{ tag := str "red", ty := .u8, val := 0 },
   { tag := str "blue", ty := .u8, val := 0 }]

/-- Claim C1, counterexample: on a header whose first format line carries
`ascii` and whose second carries `binary_little_endian`, the stored
format is the second token, not the first — later format lines do
change the stored format. -/
theorem c1_counterexample :
    (parseHeader twoFormatHeader 0).map header.Format
      = some (str "binary_little_endian")
    ∧ str "binary_little_endian" ≠ str "ascii" := by
  exact ⟨rfl, by decide⟩

/-- Claim C2, counterexample: a 1-byte unsigned property decoded into a
matching field of a wider numeric type does not widen — `reflect.Set`
panics and the call does not complete. -/
theorem c2_counterexample :
    widenReader.ReadNext [5] widenTarget
      = (widenReader, widenTarget, .error .panicked) := by
  rfl

/-- Claim C3, counterexample: with only 2 of the 4 record bytes present,
the single `file.Read` delivers a short read and `ReadNext` succeeds,
decoding the zero-padded buffer `[1, 2, 0, 0]` to 513 — it does not
fail with any truncation error. -/
theorem c3_counterexample :
    shortReader.ReadNext [1, 2] shortTarget
      = ({ shortReader with pos := 1 }, [{ tag := str "a", ty := .u32, val := 513 }],
         .ok 1) := by
  rfl

/-- Claim C4, counterexample: a recognized `property` line before any
`element` line dereferences the nil current element — parsing panics
instead of completing and ignoring the property. -/
theorem c4_counterexample :
    parseHeader (str "property float x\nend_header") 0 = none := by
  rfl

/-- Claim C9, counterexample: a header with no element line before the
terminator stores a nil entry in the element list, and `Has` then
panics on any lookup instead of evaluating safely. -/
theorem c9_counterexample :
    (parseHeader (str "format binary_little_endian\nend_header") 0).map header.Elements
      = some [none]
    ∧ (parseHeader (str "format binary_little_endian\nend_header") 0).map
        (fun h => h.Has (str "vertex")) = some none := by
  exact ⟨rfl, rfl⟩

/-- Claim C8: a reader whose cursor already equals the element count
fails with the `io.EOF` end-of-element signal before touching the file,
leaving the cursor and the target exactly as they were. -/
theorem c8_readnext_at_count (file : List Nat) (r : elementReader) (t : List field)
    (h : r.pos = r.elem.Count) :
    r.ReadNext file t = (r, t, .error .eofErr) := by
  unfold elementReader.ReadNext
  simp [h]

/-- Claim C8, witness at a concrete exhausted reader. -/
theorem c8_witness :
    elementReader.ReadNext [1, 2, 3, 4] { pos := 1, offset := 0, elem := shortElem }
        shortTarget
      = ({ pos := 1, offset := 0, elem := shortElem }, shortTarget, .error .eofErr) := by
  exact c8_readnext_at_count [1, 2, 3, 4] { pos := 1, offset := 0, elem := shortElem }
    shortTarget rfl

theorem hasElem_found (pre : List element) (e : element)
    (rest : List (Option element)) (name : List Nat)
    (hpre : ∀ e' ∈ pre, e'.Name ≠ name) (he : e.Name = name) :
    hasElem (pre.map some ++ some e :: rest) name = some true := by
  induction pre with
  | nil => simp [hasElem, he]
  | cons a tl ih =>
    have ha : a.Name ≠ name := hpre a (by simp)
    simp only [List.map_cons, List.cons_append, hasElem, if_neg ha]
    exact ih (fun e' h' => hpre e' (by simp [h']))

theorem getElementOffsetList_found (pre : List element) (e : element)
    (rest : List (Option element)) (name : List Nat)
    (hpre : ∀ e' ∈ pre, e'.Name ≠ name) (he : e.Name = name) :
    getElementOffsetList (pre.map some ++ some e :: rest) name
      = some (elemsByteSize pre) := by
  induction pre with
  | nil => simp [getElementOffsetList, he, elemsByteSize]
  | cons a tl ih =>
    have ha : a.Name ≠ name := hpre a (by simp)
    simp only [List.map_cons, List.cons_append, getElementOffsetList, if_neg ha,
      List.append_eq, ih (fun e' h' => hpre e' (by simp [h'])), Option.map_some',
      elemsByteSize]

theorem getElementList_found (pre : List element) (e : element)
    (rest : List (Option element)) (name : List Nat)
    (hpre : ∀ e' ∈ pre, e'.Name ≠ name) (he : e.Name = name) :
    getElementList (pre.map some ++ some e :: rest) name = some (some e) := by
  induction pre with
  | nil => simp [getElementList, he]
  | cons a tl ih =>
    have ha : a.Name ≠ name := hpre a (by simp)
    simp only [List.map_cons, List.cons_append, getElementList, if_neg ha]
    exact ih (fun e' h' => hpre e' (by simp [h']))

/-- Claim C5: for a schema whose element list holds the named element
after a run of valid, differently named elements, `GetElementReader`
yields a reader at cursor 0 whose base offset is the body offset plus
the summed `Count * PointByteSize` of every preceding element — in
particular, with no preceding elements, the body offset itself. -/
theorem c5_reader_base_offset (h : header) (name : List Nat) (pre : List element)
    (e : element) (rest : List (Option element))
    (hels : h.Elements = pre.map some ++ some e :: rest)
    (hpre : ∀ e' ∈ pre, e'.Name ≠ name) (he : e.Name = name) :
    h.GetElementReader name
      = some (some { pos := 0, offset := h.offset + elemsByteSize pre, elem := e }) := by
  unfold header.GetElementReader header.Has
  rw [hels, hasElem_found pre e rest name hpre he,
    getElementOffsetList_found pre e rest name hpre he,
    getElementList_found pre e rest name hpre he]

/-- Claim C5, witness: in the concrete two-element schema the second
element's reader starts at `100 + 2 * 8 = 116`. -/
theorem c5_witness :
    twoElemHeader.GetElementReader (str "face")
      = some (some { pos := 0, offset := 116, elem := faceElem }) := by
  exact c5_reader_base_offset twoElemHeader (str "face") [vtxElem] faceElem []
    rfl (by decide) rfl

theorem findSub_some_drop (pat : List Nat) :
    ∀ (s : List Nat) (k : Nat), findSub pat s = some k →
      pat.isPrefixOf (s.drop k) = true := by
  intro s
  induction s with
  | nil =>
    intro k h
    unfold findSub at h
    split at h
    · cases h
      simpa using ‹pat.isPrefixOf ([] : List Nat) = true›
    · cases h
  | cons b rest ih =>
    intro k h
    unfold findSub at h
    split at h
    · cases h
      simpa using ‹pat.isPrefixOf (b :: rest) = true›
    · rcases Option.map_eq_some'.mp h with ⟨k', hk', rfl⟩
      simpa using ih k' hk'

theorem findSub_isSome_of_drop (pat : List Nat) :
    ∀ (s : List Nat) (k : Nat), pat.isPrefixOf (s.drop k) = true →
      (findSub pat s).isSome = true := by
  intro s
  induction s with
  | nil =>
    intro k h
    simp only [List.drop_nil] at h
    simp [findSub, h]
  | cons b rest ih =>
    intro k h
    unfold findSub
    by_cases hp : pat.isPrefixOf (b :: rest) = true
    · simp [hp]
    · match k with
      | 0 => exact absurd h hp
      | k' + 1 =>
        simp only [List.drop_succ_cons] at h
        simp [Bool.not_eq_true] at hp
        simp [hp, ih k' h]

theorem readHeaderLoop_noInvalid :
    ∀ (N : Nat) (remaining acc : List Nat), remaining.length ≤ N →
      noInvalidPly (readHeaderLoop remaining acc) = true := by
  intro N
  induction N with
  | zero =>
    intro remaining acc h
    have hr : remaining = [] := List.eq_nil_of_length_eq_zero (Nat.le_zero.mp h)
    subst hr
    simp [readHeaderLoop, noInvalidPly]
  | succ N ih =>
    intro remaining acc h
    match remaining with
    | [] => simp [readHeaderLoop, noInvalidPly]
    | b :: rest =>
      rw [readHeaderLoop]
      cases hf : findSub endHeaderStr (acc ++ (b :: rest).take 100) with
      | none =>
        simp only [hf]
        refine ih _ _ ?_
        simp only [List.length_cons] at h
        simp only [List.length_drop]
        omega
      | some pos =>
        simp only [hf]
        split
        · next hle =>
          simp only [noInvalidPly, Bool.and_eq_true, decide_eq_true_eq]
          refine ⟨?_, ?_⟩
          · simp only [List.length_take]
            omega
          · have hpre := findSub_some_drop endHeaderStr _ pos hf
            refine findSub_isSome_of_drop endHeaderStr _ pos ?_
            rw [List.isPrefixOf_iff_prefix] at hpre ⊢
            rw [List.drop_take, List.prefix_take_iff]
            refine ⟨hpre, ?_⟩
            have h11 : pos + 11 - pos = 11 := by omega
            rw [h11]
            decide
        · simp [noInvalidPly]

/-- Claim C10: whenever header reading completes without a read error,
the accumulated text contains the terminator and has at least its 11
truncation bytes, so the empty-header branch never fires: neither
`readHeader` nor `Open` ever produces the "invalid ply file" error. -/
theorem c10_invalid_ply_unreachable (file : List Nat) :
    noInvalidPly (readHeader file) = true
    ∧ openNoInvalid (OpenBytes file) = true := by
  have hloop := readHeaderLoop_noInvalid file.length file [] le_rfl
  cases hl : readHeaderLoop file [] with
  | error e =>
    rw [hl] at hloop
    have hrh : readHeader file = .error e := by
      unfold readHeader
      rw [hl]
    refine ⟨by rw [hrh]; exact hloop, ?_⟩
    unfold OpenBytes
    rw [hrh]
    cases e with
    | invalidPly => simp [noInvalidPly] at hloop
    | failedRead => rfl
    | slicePanic => rfl
  | ok p =>
    obtain ⟨s, off⟩ := p
    rw [hl] at hloop
    have hlen : 11 ≤ s.length := by
      have hand := (Bool.and_eq_true _ _).mp hloop
      simpa using hand.1
    have hne : s ≠ [] := by
      intro hs
      rw [hs] at hlen
      simp at hlen
    have hrh : readHeader file = .ok (s, off) := by
      unfold readHeader
      rw [hl]
      simp [hne]
    refine ⟨by rw [hrh]; exact hloop, ?_⟩
    unfold OpenBytes
    rw [hrh]
    cases hp : parseHeader s off with
    | none => simp [hp, openNoInvalid]
    | some hd =>
      by_cases hfmt : hd.Format = str "binary_little_endian"
      · simp [hp, hfmt, openNoInvalid]
      · simp [hp, hfmt, openNoInvalid]

theorem parseLine_format (st : parseState) (l : List Nat) (st2 : parseState)
    (h : parseLine st l = some st2) :
    st2.Format = (matchFormat l).getD st.Format := by
  unfold parseLine at h
  cases hf : matchFormat l with
  | some tok =>
    rw [hf] at h
    cases h
    simp [hf]
  | none =>
    rw [hf] at h
    cases hc : matchComment l with
    | some c =>
      rw [hc] at h
      cases h
      simp [hf]
    | none =>
      rw [hc] at h
      cases he : matchElement l with
      | some pr =>
        obtain ⟨name, digits⟩ := pr
        rw [he] at h
        cases h
        simp [hf]
      | none =>
        rw [he] at h
        cases hp : matchProperty l with
        | some pr =>
          obtain ⟨tk, nm⟩ := pr
          rw [hp] at h
          cases hcu : st.curr with
          | none =>
            rw [hcu] at h
            cases h
          | some e =>
            rw [hcu] at h
            cases h
            simp [hf]
        | none =>
          rw [hp] at h
          by_cases hend : l = str "end_header"
          · rw [if_pos hend] at h
            cases h
            simp [hf]
          · rw [if_neg hend] at h
            cases h
            simp [hf]

theorem parseHeaderLines_format :
    ∀ (lines : List (List Nat)) (st st2 : parseState),
      parseHeaderLines st lines = some st2 →
      st2.Format = lines.foldl (fun a l => (matchFormat l).getD a) st.Format := by
  intro lines
  induction lines with
  | nil =>
    intro st st2 h
    cases h
    rfl
  | cons l ls ih =>
    intro st st2 h
    unfold parseHeaderLines at h
    cases hpl : parseLine st l with
    | none =>
      rw [hpl] at h
      cases h
    | some st1 =>
      rw [hpl] at h
      have h1 := parseLine_format st l st1 hpl
      simpa [List.foldl_cons, ← h1] using ih st1 st2 h

theorem foldl_getD_last (l : List (List Nat)) :
    ∀ (a : List Nat),
      l.foldl (fun a line => (matchFormat line).getD a) a
        = ((l.filterMap matchFormat).getLast?).getD a := by
  induction l with
  | nil => intro a; rfl
  | cons x xs ih =>
    intro a
    cases hx : matchFormat x with
    | none => simp [List.filterMap_cons, hx, ih a]
    | some v =>
      simp only [List.foldl_cons, hx, Option.getD_some, List.filterMap_cons, ih v]
      cases hl : (xs.filterMap matchFormat) with
      | nil => rfl
      | cons y ys =>
        have hys : (y :: ys).getLast?.isSome := by
          rw [List.getLast?_isSome]
          simp
        obtain ⟨w, hw⟩ := Option.isSome_iff_exists.mp hys
        rw [List.getLast?_cons_cons, hw]
        rfl

/-- Claim C1, amended: for a header text containing one or more format
lines, the stored format equals the token of the LAST matching format
line — each match overwrites the previous one. -/
theorem c1_last_format_wins (s : List Nat) (off : Nat) (h : header)
    (hok : parseHeader s off = some h)
    (hne : (splitOnNL s).filterMap matchFormat ≠ []) :
    some h.Format = ((splitOnNL s).filterMap matchFormat).getLast? := by
  unfold parseHeader at hok
  cases hpl : parseHeaderLines ⟨[], [], [], none⟩ (splitOnNL s) with
  | none =>
    rw [hpl] at hok
    cases hok
  | some st =>
    rw [hpl] at hok
    cases hok
    have hfmt := parseHeaderLines_format (splitOnNL s) _ _ hpl
    rw [foldl_getD_last] at hfmt
    have hsome : ((splitOnNL s).filterMap matchFormat).getLast?.isSome := by
      rw [List.getLast?_isSome]
      exact hne
    obtain ⟨w, hw⟩ := Option.isSome_iff_exists.mp hsome
    rw [hw] at hfmt ⊢
    simpa using hfmt

/-- Claim C1, amended claim witness on the two-format-line header. -/
theorem c1_witness :
    some (str "binary_little_endian")
      = ((splitOnNL twoFormatHeader).filterMap matchFormat).getLast? :=
  c1_last_format_wins twoFormatHeader 0
    { Format := str "binary_little_endian", Comment := [], offset := 0,
      Elements := [none] }
    rfl (by decide)

theorem isPrefixOf_cons_ne {a b : Nat} {as bs : List Nat} (h : a ≠ b) :
    (a :: as).isPrefixOf (b :: bs) = false := by
  rw [Bool.eq_false_iff]
  intro hc
  rw [List.isPrefixOf_iff_prefix, List.cons_prefix_cons] at hc
  exact h hc.1

theorem matchProperty_excl (l : List Nat) (h : (matchProperty l).isSome = true) :
    matchFormat l = none ∧ matchComment l = none ∧ matchElement l = none := by
  have hp : (str "property ").isPrefixOf l = true := by
    by_contra hnp
    rw [Bool.not_eq_true] at hnp
    simp [matchProperty, hnp] at h
  rw [List.isPrefixOf_iff_prefix] at hp
  obtain ⟨t, rfl⟩ := hp
  refine ⟨?_, ?_, ?_⟩
  · have h1 : (str "format ascii").isPrefixOf (str "property " ++ t) = false := by
      rw [show (str "format ascii") = 102 :: str "ormat ascii" from rfl,
        show (str "property " ++ t) = 112 :: (str "roperty " ++ t) from rfl]
      exact isPrefixOf_cons_ne (by decide)
    have h2 : (str "format binary_little_endian").isPrefixOf (str "property " ++ t)
        = false := by
      rw [show (str "format binary_little_endian")
            = 102 :: str "ormat binary_little_endian" from rfl,
        show (str "property " ++ t) = 112 :: (str "roperty " ++ t) from rfl]
      exact isPrefixOf_cons_ne (by decide)
    simp [matchFormat, h1, h2]
  · have h1 : (str "comment ").isPrefixOf (str "property " ++ t) = false := by
      rw [show (str "comment ") = 99 :: str "omment " from rfl,
        show (str "property " ++ t) = 112 :: (str "roperty " ++ t) from rfl]
      exact isPrefixOf_cons_ne (by decide)
    simp [matchComment, h1]
  · have h1 : (str "element ").isPrefixOf (str "property " ++ t) = false := by
      rw [show (str "element ") = 101 :: str "lement " from rfl,
        show (str "property " ++ t) = 112 :: (str "roperty " ++ t) from rfl]
      exact isPrefixOf_cons_ne (by decide)
    simp [matchElement, h1]

theorem parseLine_property_panic (st : parseState) (l : List Nat)
    (hcurr : st.curr = none) (hprop : (matchProperty l).isSome = true) :
    parseLine st l = none := by
  obtain ⟨h1, h2, h3⟩ := matchProperty_excl l hprop
  obtain ⟨pr, hpr⟩ := Option.isSome_iff_exists.mp hprop
  obtain ⟨tk, nm⟩ := pr
  unfold parseLine
  rw [h1, h2, h3, hpr, hcurr]

theorem parseLine_keeps_none (st : parseState) (l : List Nat) (st2 : parseState)
    (hcurr : st.curr = none) (hel : matchElement l = none)
    (h : parseLine st l = some st2) : st2.curr = none := by
  unfold parseLine at h
  cases hf : matchFormat l with
  | some tok =>
    rw [hf] at h
    cases h
    exact hcurr
  | none =>
    rw [hf] at h
    cases hc : matchComment l with
    | some c =>
      rw [hc] at h
      cases h
      exact hcurr
    | none =>
      rw [hc, hel] at h
      cases hp : matchProperty l with
      | some pr =>
        obtain ⟨tk, nm⟩ := pr
        rw [hp, hcurr] at h
        cases h
      | none =>
        rw [hp] at h
        by_cases hend : l = str "end_header"
        · rw [if_pos hend] at h
          cases h
          exact hcurr
        · rw [if_neg hend] at h
          cases h
          exact hcurr

theorem parseHeaderLines_prop_panic :
    ∀ (pre : List (List Nat)) (st : parseState) (l : List Nat)
      (post : List (List Nat)),
      st.curr = none → (∀ l' ∈ pre, matchElement l' = none) →
      (matchProperty l).isSome = true →
      parseHeaderLines st (pre ++ l :: post) = none := by
  intro pre
  induction pre with
  | nil =>
    intro st l post hcurr _ hl
    have hnone := parseLine_property_panic st l hcurr hl
    simp only [List.nil_append]
    unfold parseHeaderLines
    rw [hnone]
  | cons l' pre' ih =>
    intro st l post hcurr hpre hl
    simp only [List.cons_append]
    unfold parseHeaderLines
    cases hpl : parseLine st l' with
    | none => rfl
    | some st1 =>
      have h1 : st1.curr = none :=
        parseLine_keeps_none st l' st1 hcurr (hpre l' (by simp)) hpl
      exact ih st1 l post h1 (fun x hx => hpre x (by simp [hx])) hl

/-- Claim C4, amended: a header text in which a recognized property line
appears before any element line makes `parseHeader` panic (nil-pointer
dereference), rather than complete with the property ignored. -/
theorem c4_property_panics (s : List Nat) (off : Nat)
    (pre post : List (List Nat)) (l : List Nat)
    (hsplit : splitOnNL s = pre ++ l :: post)
    (hpre : ∀ l' ∈ pre, matchElement l' = none)
    (hl : (matchProperty l).isSome = true) :
    parseHeader s off = none := by
  unfold parseHeader
  rw [hsplit, parseHeaderLines_prop_panic pre _ l post rfl hpre hl]

/-- Claim C4, amended claim witness: a comment line, then a property line
with no element before it. -/
theorem c4_witness :
    parseHeader (str "comment hi\nproperty uchar red\nend_header") 0 = none :=
  c4_property_panics (str "comment hi\nproperty uchar red\nend_header") 0
    [str "comment hi"] [str "end_header"] (str "property uchar red")
    (by decide) (by decide) (by decide)

theorem matchElement_excl (l : List Nat) (h : (matchElement l).isSome = true) :
    matchFormat l = none ∧ matchComment l = none := by
  have hp : (str "element ").isPrefixOf l = true := by
    by_contra hnp
    rw [Bool.not_eq_true] at hnp
    simp [matchElement, hnp] at h
  rw [List.isPrefixOf_iff_prefix] at hp
  obtain ⟨t, rfl⟩ := hp
  constructor
  · have h1 : (str "format ascii").isPrefixOf (str "element " ++ t) = false := by
      rw [show (str "format ascii") = 102 :: str "ormat ascii" from rfl,
        show (str "element " ++ t) = 101 :: (str "lement " ++ t) from rfl]
      exact isPrefixOf_cons_ne (by decide)
    have h2 : (str "format binary_little_endian").isPrefixOf (str "element " ++ t)
        = false := by
      rw [show (str "format binary_little_endian")
            = 102 :: str "ormat binary_little_endian" from rfl,
        show (str "element " ++ t) = 101 :: (str "lement " ++ t) from rfl]
      exact isPrefixOf_cons_ne (by decide)
    simp [matchFormat, h1, h2]
  · have h1 : (str "comment ").isPrefixOf (str "element " ++ t) = false := by
      rw [show (str "comment ") = 99 :: str "omment " from rfl,
        show (str "element " ++ t) = 101 :: (str "lement " ++ t) from rfl]
      exact isPrefixOf_cons_ne (by decide)
    simp [matchComment, h1]

theorem parseLine_pres_elems (st : parseState) (l : List Nat) (st2 : parseState)
    (h : parseLine st l = some st2)
    (hend : l ≠ str "end_header")
    (hall : ∀ oe ∈ st.Elements, oe.isSome = true) :
    ∀ oe ∈ st2.Elements, oe.isSome = true := by
  unfold parseLine at h
  cases hf : matchFormat l with
  | some tok =>
    rw [hf] at h
    cases h
    exact hall
  | none =>
    rw [hf] at h
    cases hc : matchComment l with
    | some c =>
      rw [hc] at h
      cases h
      exact hall
    | none =>
      rw [hc] at h
      cases he : matchElement l with
      | some pr =>
        obtain ⟨name, digits⟩ := pr
        rw [he] at h
        cases hcu : st.curr with
        | some e =>
          rw [hcu] at h
          cases h
          intro oe hoe
          simp only [List.mem_append, List.mem_singleton] at hoe
          cases hoe with
          | inl hin => exact hall oe hin
          | inr heq => simp [heq]
        | none =>
          rw [hcu] at h
          cases h
          exact hall
      | none =>
        rw [he] at h
        cases hp : matchProperty l with
        | some pr =>
          obtain ⟨tk, nm⟩ := pr
          rw [hp] at h
          cases hcu : st.curr with
          | none =>
            rw [hcu] at h
            cases h
          | some e =>
            rw [hcu] at h
            cases h
            exact hall
        | none =>
          rw [hp, if_neg hend] at h
          cases h
          exact hall

theorem parseLine_pres_curr (st : parseState) (l : List Nat) (st2 : parseState)
    (h : parseLine st l = some st2)
    (hcurr : st.curr.isSome = true)
    (hall : ∀ oe ∈ st.Elements, oe.isSome = true) :
    st2.curr.isSome = true ∧ ∀ oe ∈ st2.Elements, oe.isSome = true := by
  unfold parseLine at h
  cases hf : matchFormat l with
  | some tok =>
    rw [hf] at h
    cases h
    exact ⟨hcurr, hall⟩
  | none =>
    rw [hf] at h
    cases hc : matchComment l with
    | some c =>
      rw [hc] at h
      cases h
      exact ⟨hcurr, hall⟩
    | none =>
      rw [hc] at h
      cases he : matchElement l with
      | some pr =>
        obtain ⟨name, digits⟩ := pr
        rw [he] at h
        obtain ⟨e, hcu⟩ := Option.isSome_iff_exists.mp hcurr
        rw [hcu] at h
        cases h
        refine ⟨rfl, ?_⟩
        intro oe hoe
        simp only [List.mem_append, List.mem_singleton] at hoe
        cases hoe with
        | inl hin => exact hall oe hin
        | inr heq => simp [heq]
      | none =>
        rw [he] at h
        cases hp : matchProperty l with
        | some pr =>
          obtain ⟨tk, nm⟩ := pr
          rw [hp] at h
          obtain ⟨e, hcu⟩ := Option.isSome_iff_exists.mp hcurr
          rw [hcu] at h
          cases h
          exact ⟨rfl, hall⟩
        | none =>
          rw [hp] at h
          by_cases hend : l = str "end_header"
          · rw [if_pos hend] at h
            cases h
            refine ⟨hcurr, ?_⟩
            intro oe hoe
            simp only [List.mem_append, List.mem_singleton] at hoe
            cases hoe with
            | inl hin => exact hall oe hin
            | inr heq => rw [heq]; exact hcurr
          · rw [if_neg hend] at h
            cases h
            exact ⟨hcurr, hall⟩

theorem parseHeaderLines_append (xs ys : List (List Nat)) :
    ∀ st, parseHeaderLines st (xs ++ ys)
      = match parseHeaderLines st xs with
        | none => none
        | some st1 => parseHeaderLines st1 ys := by
  induction xs with
  | nil => intro st; rfl
  | cons x xs ih =>
    intro st
    simp only [List.cons_append]
    cases hpl : parseLine st x with
    | none =>
      show (match parseLine st x with
            | none => none
            | some st2 => parseHeaderLines st2 (xs ++ ys)) = _
      rw [hpl]
      show none = (match (match parseLine st x with
            | none => none
            | some st2 => parseHeaderLines st2 xs) with
            | none => none
            | some st1 => parseHeaderLines st1 ys)
      rw [hpl]
    | some st1 =>
      show (match parseLine st x with
            | none => none
            | some st2 => parseHeaderLines st2 (xs ++ ys)) = _
      rw [hpl]
      show parseHeaderLines st1 (xs ++ ys)
        = (match (match parseLine st x with
            | none => none
            | some st2 => parseHeaderLines st2 xs) with
            | none => none
            | some st1 => parseHeaderLines st1 ys)
      rw [hpl]
      exact ih st1

theorem parseHeaderLines_pres_elems :
    ∀ (lines : List (List Nat)) (st st2 : parseState),
      parseHeaderLines st lines = some st2 →
      (∀ l ∈ lines, l ≠ str "end_header") →
      (∀ oe ∈ st.Elements, oe.isSome = true) →
      ∀ oe ∈ st2.Elements, oe.isSome = true := by
  intro lines
  induction lines with
  | nil =>
    intro st st2 h _ hall
    cases h
    exact hall
  | cons l ls ih =>
    intro st st2 h hend hall
    unfold parseHeaderLines at h
    cases hpl : parseLine st l with
    | none =>
      rw [hpl] at h
      cases h
    | some st1 =>
      rw [hpl] at h
      exact ih st1 st2 h (fun x hx => hend x (by simp [hx]))
        (parseLine_pres_elems st l st1 hpl (hend l (by simp)) hall)

theorem parseHeaderLines_pres_curr :
    ∀ (lines : List (List Nat)) (st st2 : parseState),
      parseHeaderLines st lines = some st2 →
      st.curr.isSome = true →
      (∀ oe ∈ st.Elements, oe.isSome = true) →
      ∀ oe ∈ st2.Elements, oe.isSome = true := by
  intro lines
  induction lines with
  | nil =>
    intro st st2 h _ hall
    cases h
    exact hall
  | cons l ls ih =>
    intro st st2 h hcurr hall
    unfold parseHeaderLines at h
    cases hpl : parseLine st l with
    | none =>
      rw [hpl] at h
      cases h
    | some st1 =>
      rw [hpl] at h
      obtain ⟨h1, h2⟩ := parseLine_pres_curr st l st1 hpl hcurr hall
      exact ih st1 st2 h h1 h2

theorem hasElem_isSome (l : List (Option element))
    (hall : ∀ oe ∈ l, oe.isSome = true) (name : List Nat) :
    (hasElem l name).isSome = true := by
  induction l with
  | nil => rfl
  | cons oe rest ih =>
    cases oe with
    | none =>
      have := hall none (by simp)
      simp at this
    | some e =>
      unfold hasElem
      by_cases he : e.Name = name
      · simp [he]
      · simp only [if_neg he]
        exact ih (fun x hx => hall x (by simp [hx]))

theorem hasElem_true_lookups (l : List (Option element)) (name : List Nat)
    (h : hasElem l name = some true) :
    (∃ e, getElementList l name = some (some e))
    ∧ ∃ k, getElementOffsetList l name = some k := by
  induction l with
  | nil => cases h
  | cons oe rest ih =>
    cases oe with
    | none => cases h
    | some e =>
      unfold hasElem at h
      unfold getElementList getElementOffsetList
      by_cases he : e.Name = name
      · simp [he]
      · rw [if_neg he] at h
        obtain ⟨⟨e2, he2⟩, ⟨k, hk⟩⟩ := ih h
        refine ⟨⟨e2, ?_⟩, ⟨e.Count * e.PointByteSize + k, ?_⟩⟩
        · simp [if_neg he, he2]
        · simp [if_neg he, hk]

theorem getElementReader_isSome (h : header) (name : List Nat)
    (hall : ∀ oe ∈ h.Elements, oe.isSome = true) :
    (h.GetElementReader name).isSome = true := by
  unfold header.GetElementReader
  have hh := hasElem_isSome h.Elements hall name
  cases hv : h.Has name with
  | none =>
    unfold header.Has at hv
    rw [hv] at hh
    cases hh
  | some b =>
    cases b with
    | false => rfl
    | true =>
      unfold header.Has at hv
      obtain ⟨⟨e, he⟩, ⟨k, hk⟩⟩ := hasElem_true_lookups h.Elements name hv
      rw [he, hk]
      rfl

/-- Claim C9, amended: entries of the parsed schema's element list are
all valid (non-nil) provided at least one element line precedes the
terminator and no terminator line precedes it; `Has` and
`GetElementReader` then evaluate safely for every name.  Without such
an element line the terminator appends a nil entry (see the
counterexample). -/
theorem c9_elements_valid (s : List Nat) (off : Nat) (h : header)
    (pre rest : List (List Nat)) (el : List Nat)
    (hsplit : splitOnNL s = pre ++ el :: rest)
    (hel : (matchElement el).isSome = true)
    (hpre : ∀ l ∈ pre, l ≠ str "end_header")
    (hok : parseHeader s off = some h) :
    (∀ oe ∈ h.Elements, oe.isSome = true)
    ∧ ∀ name, (h.Has name).isSome = true
        ∧ (h.GetElementReader name).isSome = true := by
  unfold parseHeader at hok
  rw [hsplit, parseHeaderLines_append] at hok
  cases hp1 : parseHeaderLines ⟨[], [], [], none⟩ pre with
  | none =>
    rw [hp1] at hok
    cases hok
  | some st1 =>
    rw [hp1] at hok
    have hall1 : ∀ oe ∈ st1.Elements, oe.isSome = true :=
      parseHeaderLines_pres_elems pre _ st1 hp1 hpre (by simp)
    simp only [] at hok
    cases hpl : parseHeaderLines st1 (el :: rest) with
    | none =>
      rw [hpl] at hok
      cases hok
    | some st =>
      rw [hpl] at hok
      cases hok
      unfold parseHeaderLines at hpl
      cases hp2 : parseLine st1 el with
      | none =>
        rw [hp2] at hpl
        cases hpl
      | some st2 =>
        rw [hp2] at hpl
        have hexcl := matchElement_excl el hel
        obtain ⟨pr, hpr⟩ := Option.isSome_iff_exists.mp hel
        obtain ⟨name, digits⟩ := pr
        have hcurr2 : st2.curr.isSome = true ∧
            ∀ oe ∈ st2.Elements, oe.isSome = true := by
          unfold parseLine at hp2
          rw [hexcl.1, hexcl.2, hpr] at hp2
          cases hcu : st1.curr with
          | some e =>
            rw [hcu] at hp2
            cases hp2
            refine ⟨rfl, ?_⟩
            intro oe hoe
            simp only [List.mem_append, List.mem_singleton] at hoe
            cases hoe with
            | inl hin => exact hall1 oe hin
            | inr heq => simp [heq]
          | none =>
            rw [hcu] at hp2
            cases hp2
            exact ⟨rfl, hall1⟩
        have hall : ∀ oe ∈ st.Elements, oe.isSome = true :=
          parseHeaderLines_pres_curr rest st2 st hpl hcurr2.1 hcurr2.2
        refine ⟨hall, fun name2 => ⟨hasElem_isSome _ hall name2, ?_⟩⟩
        exact getElementReader_isSome _ name2 hall

/-- Claim C9, amended claim witness: a header with one element line
before the terminator parses to a schema safe for every lookup; checked
at the name `vertex`. -/
theorem c9_witness :
    ((parseHeader (str "element vertex 3\nend_header\n") 0).getD
        { Format := [], Comment := [], offset := 0, Elements := [] }).Has
      (str "vertex") = some true := by
  have hmain := c9_elements_valid (str "element vertex 3\nend_header\n") 0
    { Format := [], Comment := [], offset := 0,
      Elements := [some { Name := str "vertex", Count := 3, Properties := [] }] }
    [] [str "end_header", []] (str "element vertex 3")
    (by decide) (by decide) (by simp) rfl
  have hv := (hmain.2 (str "vertex")).1
  revert hv
  decide

theorem setFields_some_inv (name : List Nat) (ty : goTy) (v : Nat) :
    ∀ (t u : List field), setFields t name ty v = some u →
      (∀ f ∈ t, f.tag = name → f.ty = ty)
      ∧ u = t.map (fun f => if f.tag = name then { f with val := v } else f) := by
  intro t
  induction t with
  | nil =>
    intro u h
    cases h
    exact ⟨by simp, by simp⟩
  | cons f rest ih =>
    intro u h
    unfold setFields at h
    by_cases htag : f.tag = name
    · rw [if_pos htag] at h
      by_cases hty : f.ty = ty
      · rw [if_pos hty] at h
        cases hu : setFields rest name ty v with
        | none =>
          rw [hu] at h
          cases h
        | some u2 =>
          rw [hu] at h
          obtain ⟨h1, h2⟩ := ih u2 hu
          cases h
          constructor
          · intro g hg htg
            rcases List.mem_cons.mp hg with rfl | hg2
            · exact hty
            · exact h1 g hg2 htg
          · simp [htag, h2]
      · rw [if_neg hty] at h
        cases h
    · rw [if_neg htag] at h
      cases hu : setFields rest name ty v with
      | none =>
        rw [hu] at h
        cases h
      | some u2 =>
        rw [hu] at h
        obtain ⟨h1, h2⟩ := ih u2 hu
        cases h
        constructor
        · intro g hg htg
          rcases List.mem_cons.mp hg with rfl | hg2
          · exact absurd htg htag
          · exact h1 g hg2 htg
        · simp [htag, h2]

theorem setFields_isSome (name : List Nat) (ty : goTy) (v : Nat) :
    ∀ (t : List field), (setFields t name ty v).isSome
      = t.all (fun f => !(decide (f.tag = name)) || decide (f.ty = ty)) := by
  intro t
  induction t with
  | nil => rfl
  | cons f rest ih =>
    unfold setFields
    by_cases htag : f.tag = name
    · by_cases hty : f.ty = ty
      · simp [htag, hty, ih]
      · simp [htag, hty]
    · simp [htag, ih]

theorem lastMatch_isSome (tag : List Nat) :
    ∀ (props : List property) (off : Nat) (buf : List Nat),
      (lastMatch props off buf tag).isSome = hasMatch props tag := by
  intro props
  induction props with
  | nil => intro off buf; rfl
  | cons p rest ih =>
    intro off buf
    have hr := ih (off + p.Size) buf
    unfold lastMatch hasMatch
    cases hl : lastMatch rest (off + p.Size) buf tag with
    | some v =>
      rw [hl] at hr
      unfold hasMatch at hr
      simp [List.any_cons, ← hr]
    | none =>
      rw [hl] at hr
      unfold hasMatch at hr
      by_cases hn : p.Name = tag
      · cases hg : propGoTy p.Type' with
        | some ty => simp [hn, hg, List.any_cons, ← hr]
        | none => simp [hn, hg, List.any_cons, ← hr]
      · simp [hn, List.any_cons, ← hr]

theorem lastMatch_cons_unrec (p : property) (rest : List property)
    (off : Nat) (buf tag : List Nat) (hg : propGoTy p.Type' = none) :
    lastMatch (p :: rest) off buf tag = lastMatch rest (off + p.Size) buf tag := by
  simp only [lastMatch]
  cases hl : lastMatch rest (off + p.Size) buf tag with
  | some v => rfl
  | none =>
    by_cases hn : p.Name = tag
    · simp [hn, hg]
    · simp [hn]

theorem decodeProps_char :
    ∀ (props : List property) (buf : List Nat) (off : Nat) (t t2 : List field),
      decodeProps props buf off t = some t2 →
      t2 = t.map (fun f => { f with val := (lastMatch props off buf f.tag).getD f.val }) := by
  intro props
  induction props with
  | nil =>
    intro buf off t t2 h
    cases h
    have hid : (fun f : field =>
        { f with val := (lastMatch [] off buf f.tag).getD f.val }) = fun f => f := by
      funext f
      rfl
    rw [hid, List.map_id']
  | cons p rest ih =>
    intro buf off t t2 h
    unfold decodeProps at h
    by_cases hb : off + p.Size ≤ buf.length
    · rw [if_pos hb] at h
      simp only [] at h
      cases hg : propGoTy p.Type' with
      | none =>
        rw [hg] at h
        simp only [] at h
        rw [ih buf (off + p.Size) t t2 h]
        refine (List.map_congr_left ?_)
        intro f _
        rw [lastMatch_cons_unrec p rest off buf f.tag hg]
      | some ty =>
        rw [hg] at h
        simp only [] at h
        cases hs : setFields t p.Name ty
            (leVal ((buf.drop off).take p.Size) % 2 ^ (8 * ty.width)) with
        | none =>
          rw [hs] at h
          cases h
        | some u =>
          rw [hs] at h
          simp only [] at h
          obtain ⟨hcond, hu⟩ := setFields_some_inv _ _ _ t u hs
          rw [ih buf (off + p.Size) u t2 h, hu, List.map_map]
          refine (List.map_congr_left ?_)
          intro f _
          by_cases htag : f.tag = p.Name
          · simp only [Function.comp, htag, lastMatch]
            cases hlm : lastMatch rest (off + p.Size) buf p.Name with
            | some w => simp [hlm]
            | none => simp [hlm, hg]
          · simp only [Function.comp, lastMatch]
            cases hlm : lastMatch rest (off + p.Size) buf f.tag with
            | some w => simp [hlm, htag, Ne.symm htag]
            | none => simp [hlm, htag, Ne.symm htag]
    · rw [if_neg hb] at h
      cases h

theorem setFields_sig (name : List Nat) (ty : goTy) (v : Nat)
    (t u : List field) (h : setFields t name ty v = some u) :
    tagTys u = tagTys t := by
  obtain ⟨_, hu⟩ := setFields_some_inv name ty v t u h
  rw [hu]
  unfold tagTys
  rw [List.map_map]
  refine (List.map_congr_left ?_)
  intro f _
  by_cases htag : f.tag = name <;> simp [htag]

theorem decode_isSome_sig :
    ∀ (props : List property) (buf : List Nat) (off : Nat) (t1 t2 : List field),
      tagTys t1 = tagTys t2 →
      (decodeProps props buf off t1).isSome = (decodeProps props buf off t2).isSome := by
  intro props
  induction props with
  | nil => intro buf off t1 t2 _; rfl
  | cons p rest ih =>
    intro buf off t1 t2 hsig
    unfold decodeProps
    by_cases hb : off + p.Size ≤ buf.length
    · rw [if_pos hb, if_pos hb]
      simp only []
      cases hg : propGoTy p.Type' with
      | none =>
        simp only []
        exact ih buf (off + p.Size) t1 t2 hsig
      | some ty =>
        simp only []
        have hall : (setFields t1 p.Name ty
              (leVal ((buf.drop off).take p.Size) % 2 ^ (8 * ty.width))).isSome
            = (setFields t2 p.Name ty
              (leVal ((buf.drop off).take p.Size) % 2 ^ (8 * ty.width))).isSome := by
          rw [setFields_isSome, setFields_isSome]
          have e1 : ∀ (t : List field),
              t.all (fun f => !(decide (f.tag = p.Name)) || decide (f.ty = ty))
                = (tagTys t).all (fun q => !(decide (q.1 = p.Name)) || decide (q.2 = ty)) := by
            intro t
            induction t with
            | nil => rfl
            | cons f ft iht =>
              simp only [tagTys] at iht ⊢
              simp [List.all_cons, iht]
          rw [e1, e1, hsig]
        cases hs1 : setFields t1 p.Name ty
            (leVal ((buf.drop off).take p.Size) % 2 ^ (8 * ty.width)) with
        | none =>
          rw [hs1] at hall
          cases hs2 : setFields t2 p.Name ty
              (leVal ((buf.drop off).take p.Size) % 2 ^ (8 * ty.width)) with
          | none => rfl
          | some u2 =>
            rw [hs2] at hall
            simp at hall
        | some u1 =>
          rw [hs1] at hall
          cases hs2 : setFields t2 p.Name ty
              (leVal ((buf.drop off).take p.Size) % 2 ^ (8 * ty.width)) with
          | none =>
            rw [hs2] at hall
            simp at hall
          | some u2 =>
            refine ih buf (off + p.Size) u1 u2 ?_
            rw [setFields_sig _ _ _ t1 u1 hs1, setFields_sig _ _ _ t2 u2 hs2, hsig]
    · rw [if_neg hb, if_neg hb]

theorem decode_absorb (props : List property) (buf1 buf2 : List Nat)
    (off1 off2 : Nat) (t t1 : List field)
    (h : decodeProps props buf1 off1 t = some t1) :
    decodeProps props buf2 off2 t1 = decodeProps props buf2 off2 t := by
  have hchar1 := decodeProps_char props buf1 off1 t t1 h
  have hsig : tagTys t1 = tagTys t := by
    rw [hchar1]
    unfold tagTys
    rw [List.map_map]
    rfl
  have hiso := decode_isSome_sig props buf2 off2 t1 t hsig
  cases h2 : decodeProps props buf2 off2 t with
  | none =>
    rw [h2] at hiso
    cases h1 : decodeProps props buf2 off2 t1 with
    | none => rfl
    | some bad =>
      rw [h1] at hiso
      simp at hiso
  | some t2 =>
    have h1some : (decodeProps props buf2 off2 t1).isSome = true := by
      rw [hiso, h2]
      rfl
    obtain ⟨t1n, h1⟩ := Option.isSome_iff_exists.mp h1some
    rw [h1]
    have hc1 := decodeProps_char props buf2 off2 t1 t1n h1
    have hc2 := decodeProps_char props buf2 off2 t t2 h2
    rw [hc1, hc2, hchar1, List.map_map]
    refine congrArg some (List.map_congr_left ?_)
    intro f _
    cases hlm : lastMatch props off2 buf2 f.tag with
    | some w => simp [Function.comp, hlm]
    | none =>
      have hnone1 : lastMatch props off1 buf1 f.tag = none := by
        have ha := lastMatch_isSome f.tag props off1 buf1
        have hb2 := lastMatch_isSome f.tag props off2 buf2
        rw [hlm] at hb2
        rw [← hb2] at ha
        exact Option.not_isSome_iff_eq_none.mp (by simp [ha])
      simp [Function.comp, hlm, hnone1]

theorem decode_some_of_compat :
    ∀ (props : List property) (buf : List Nat) (off : Nat) (t : List field),
      compat props t → off + sumSizes props ≤ buf.length →
      (decodeProps props buf off t).isSome = true := by
  intro props
  induction props with
  | nil => intro buf off t _ _; rfl
  | cons p rest ih =>
    intro buf off t hc hlen
    unfold decodeProps
    have hb : off + p.Size ≤ buf.length := by
      unfold sumSizes at hlen
      omega
    rw [if_pos hb]
    simp only []
    cases hg : propGoTy p.Type' with
    | none =>
      simp only []
      refine ih buf (off + p.Size) t ?_ ?_
      · exact fun f hf q hq htag => hc f hf q (List.mem_cons_of_mem p hq) htag
      · unfold sumSizes at hlen
        omega
    | some ty =>
      simp only []
      have hset : (setFields t p.Name ty
          (leVal ((buf.drop off).take p.Size) % 2 ^ (8 * ty.width))).isSome = true := by
        rw [setFields_isSome]
        rw [List.all_eq_true]
        intro f hf
        by_cases htag : f.tag = p.Name
        · have hcf := hc f hf p (List.mem_cons_self p rest) htag
          rw [hg] at hcf
          have hty : ty = f.ty := by
            injection hcf
          simp [htag, hty]
        · simp [htag]
      obtain ⟨u, hu⟩ := Option.isSome_iff_exists.mp hset
      rw [hu]
      obtain ⟨_, humap⟩ := setFields_some_inv _ _ _ t u hu
      refine ih buf (off + p.Size) u ?_ ?_
      · intro f hf q hq htag
        rw [humap] at hf
        obtain ⟨g, hg2, rfl⟩ := List.mem_map.mp hf
        by_cases hgt : g.tag = p.Name
        · simp only [if_pos hgt] at htag ⊢
          exact hc g hg2 q (List.mem_cons_of_mem p hq) htag
        · simp only [if_neg hgt] at htag ⊢
          exact hc g hg2 q (List.mem_cons_of_mem p hq) htag
      · unfold sumSizes at hlen
        omega

theorem foldl_size (l : List property) :
    ∀ (a : Nat), l.foldl (fun s p => s + p.Size) a = a + sumSizes l := by
  induction l with
  | nil => intro a; simp [sumSizes]
  | cons p rest ih =>
    intro a
    simp only [List.foldl_cons, sumSizes, ih (a + p.Size)]
    omega

theorem pointByteSize_eq (e : element) : e.PointByteSize = sumSizes e.Properties := by
  unfold element.PointByteSize
  rw [foldl_size]
  omega

theorem recordBuf_length (file : List Nat) (pos size : Nat) :
    (recordBuf file pos size).length = size := by
  unfold recordBuf
  simp only [List.length_append, List.length_replicate, List.length_take]
  omega

theorem ReadNext_ok (file : List Nat) (r : elementReader) (t t2 : List field)
    (h1 : r.pos < r.elem.Count)
    (h2 : r.offset + r.pos * r.elem.PointByteSize < file.length)
    (hdec : decodeProps r.elem.Properties
        (recordBuf file (r.offset + r.pos * r.elem.PointByteSize) r.elem.PointByteSize)
        0 t = some t2) :
    r.ReadNext file t = ({ r with pos := r.pos + 1 }, t2, .ok (r.pos + 1)) := by
  simp only [elementReader.ReadNext]
  rw [if_neg (Nat.not_le.mpr h1), if_neg (Nat.not_le.mpr h2), hdec]

theorem decodeProps_none_of_mismatch :
    ∀ (props : List property) (buf : List Nat) (off : Nat) (t : List field)
      (p : property) (f : field) (ty : goTy),
      p ∈ props → f ∈ t → f.tag = p.Name → propGoTy p.Type' = some ty → f.ty ≠ ty →
      decodeProps props buf off t = none := by
  intro props
  induction props with
  | nil =>
    intro buf off t p f ty hp
    simp at hp
  | cons q rest ih =>
    intro buf off t p f ty hp hf htag hg hne
    unfold decodeProps
    by_cases hb : off + q.Size ≤ buf.length
    · rw [if_pos hb]
      simp only []
      cases hgq : propGoTy q.Type' with
      | none =>
        simp only []
        have hpq : p ∈ rest := by
          rcases List.mem_cons.mp hp with rfl | h2
          · rw [hgq] at hg
            cases hg
          · exact h2
        exact ih buf (off + q.Size) t p f ty hpq hf htag hg hne
      | some tyq =>
        simp only []
        cases hs : setFields t q.Name tyq
            (leVal ((buf.drop off).take q.Size) % 2 ^ (8 * tyq.width)) with
        | none => rfl
        | some u =>
          obtain ⟨hcond, humap⟩ := setFields_some_inv _ _ _ t u hs
          have hpq : p ∈ rest := by
            rcases List.mem_cons.mp hp with rfl | h2
            · exfalso
              have h3 := hcond f hf htag
              rw [hg] at hgq
              injection hgq with h4
              exact hne (by rw [h3, h4])
            · exact h2
          have hfu : ∃ f2 ∈ u, f2.tag = f.tag ∧ f2.ty = f.ty := by
            rw [humap]
            refine ⟨_, List.mem_map_of_mem _ hf, ?_, ?_⟩
            · by_cases h5 : f.tag = q.Name <;> simp [h5]
            · by_cases h5 : f.tag = q.Name <;> simp [h5]
          obtain ⟨f2, hf2, htag2, hty2⟩ := hfu
          exact ih buf (off + q.Size) u p f2 ty hpq hf2 (htag2.trans htag) hg
            (by rw [hty2]; exact hne)
    · rw [if_neg hb]

/-- Claim C2, amended: whenever some property of the element binds a
target field whose Go type is not exactly the type the property decodes
through (a wider numeric field included), an in-range `ReadNext` panics
via `reflect.Value.Set` instead of converting, leaving reader and
target untouched. -/
theorem c2_ty_mismatch_panics (file : List Nat) (r : elementReader) (t : List field)
    (p : property) (f : field) (ty : goTy)
    (hp : p ∈ r.elem.Properties) (hf : f ∈ t) (htag : f.tag = p.Name)
    (hg : propGoTy p.Type' = some ty) (hne : f.ty ≠ ty)
    (hpos : r.pos < r.elem.Count)
    (hav : r.offset + r.pos * r.elem.PointByteSize < file.length) :
    r.ReadNext file t = (r, t, .error .panicked) := by
  simp only [elementReader.ReadNext]
  rw [if_neg (Nat.not_le.mpr hpos), if_neg (Nat.not_le.mpr hav),
    decodeProps_none_of_mismatch r.elem.Properties _ 0 t p f ty hp hf htag hg hne]

/-- Claim C2, amended claim witness: a `double` property into a `float32`
field panics. -/
theorem c2_witness :
    mmReader.ReadNext (List.replicate 16 9) mmTarget
      = (mmReader, mmTarget, .error .panicked) :=
  c2_ty_mismatch_panics (List.replicate 16 9) mmReader mmTarget
    { Type' := str "double", Name := str "x", Size := 8 }
    { tag := str "x", ty := .f32, val := 7 } .f64
    (by decide) (by decide) (by decide) (by decide) (by decide) (by decide)
    (by decide)

theorem recordBuf_zero_ext (file : List Nat) (p size k : Nat) (h : p ≤ file.length) :
    recordBuf (file ++ List.replicate k 0) p size = recordBuf file p size := by
  unfold recordBuf
  rw [List.drop_append_of_le_length h]
  by_cases hx : size ≤ (file.drop p).length
  · rw [List.take_append_of_le_length hx]
  · push_neg at hx
    have hx1 : (file.drop p).take size = file.drop p :=
      List.take_of_length_le (le_of_lt hx)
    rw [List.take_append_eq_append_take, List.take_replicate, hx1]
    simp only [List.length_append, List.length_replicate]
    rw [List.append_assoc, ← List.replicate_add]
    congr 2
    omega

/-- Claim C3, amended: a short read is invisible to `ReadNext` — reading
a record whose first byte exists behaves exactly as if the file were
zero-extended to cover the whole record: the single `Read` never fails
on a partial record, and the missing bytes decode as the zero fill of
the record buffer. -/
theorem c3_short_read_zero_fill (file : List Nat) (r : elementReader)
    (t : List field) (k : Nat)
    (hav : r.offset + r.pos * r.elem.PointByteSize < file.length) :
    elementReader.ReadNext (file ++ List.replicate k 0) r t
      = elementReader.ReadNext file r t := by
  simp only [elementReader.ReadNext]
  by_cases hc : r.elem.Count ≤ r.pos
  · rw [if_pos hc, if_pos hc]
  · rw [if_neg hc, if_neg hc]
    have hlen : ¬((file ++ List.replicate k 0).length
        ≤ r.offset + r.pos * r.elem.PointByteSize) := by
      simp only [List.length_append, List.length_replicate]
      omega
    rw [if_neg (Nat.not_le.mpr hav), if_neg hlen,
      recordBuf_zero_ext file _ _ k (le_of_lt hav)]

/-- Claim C3, amended claim witness: the 2-of-4-byte short read equals
the read over the file padded with two zero bytes. -/
theorem c3_witness :
    elementReader.ReadNext ([1, 2] ++ List.replicate 2 0) shortReader shortTarget
      = elementReader.ReadNext [1, 2] shortReader shortTarget :=
  c3_short_read_zero_fill [1, 2] shortReader shortTarget 2 (by decide)

theorem setFields_no_match (name : List Nat) (ty : goTy) (v : Nat) :
    ∀ (t : List field), (∀ f ∈ t, f.tag ≠ name) → setFields t name ty v = some t := by
  intro t
  induction t with
  | nil => intro _; rfl
  | cons f rest ih =>
    intro h
    unfold setFields
    rw [if_neg (h f (by simp)), ih (fun g hg => h g (by simp [hg]))]
    rfl

theorem decode_congr_drop :
    ∀ (props : List property) (b1 b2 : List Nat) (o1 o2 : Nat) (t : List field),
      b1.drop o1 = b2.drop o2 → o1 ≤ b1.length → o2 ≤ b2.length →
      decodeProps props b1 o1 t = decodeProps props b2 o2 t := by
  intro props
  induction props with
  | nil => intro b1 b2 o1 o2 t _ _ _; rfl
  | cons p rest ih =>
    intro b1 b2 o1 o2 t hdrop ho1 ho2
    have hlen : b1.length - o1 = b2.length - o2 := by
      have := congrArg List.length hdrop
      simpa [List.length_drop] using this
    unfold decodeProps
    by_cases hb : o1 + p.Size ≤ b1.length
    · have hb2 : o2 + p.Size ≤ b2.length := by omega
      rw [if_pos hb, if_pos hb2]
      simp only []
      rw [hdrop]
      cases propGoTy p.Type' with
      | none =>
        simp only []
        refine ih b1 b2 (o1 + p.Size) (o2 + p.Size) t ?_ hb hb2
        rw [show b1.drop (o1 + p.Size) = (b1.drop o1).drop p.Size from by
            rw [List.drop_drop, Nat.add_comm],
          show b2.drop (o2 + p.Size) = (b2.drop o2).drop p.Size from by
            rw [List.drop_drop, Nat.add_comm],
          hdrop]
      | some ty =>
        simp only []
        cases setFields t p.Name ty
            (leVal ((b2.drop o2).take p.Size) % 2 ^ (8 * ty.width)) with
        | none => rfl
        | some u =>
          refine ih b1 b2 (o1 + p.Size) (o2 + p.Size) u ?_ hb hb2
          rw [show b1.drop (o1 + p.Size) = (b1.drop o1).drop p.Size from by
              rw [List.drop_drop, Nat.add_comm],
            show b2.drop (o2 + p.Size) = (b2.drop o2).drop p.Size from by
              rw [List.drop_drop, Nat.add_comm],
            hdrop]
    · have hb2 : ¬(o2 + p.Size ≤ b2.length) := by omega
      rw [if_neg hb, if_neg hb2]

theorem decode_skip_unmatched :
    ∀ (pre : List property) (g : property) (post : List property)
      (buf : List Nat) (off : Nat) (t : List field),
      (∀ f ∈ t, f.tag ≠ g.Name) →
      off + sumSizes pre + g.Size ≤ buf.length →
      decodeProps (pre ++ post)
          (buf.take (off + sumSizes pre) ++ buf.drop (off + sumSizes pre + g.Size)) off t
        = decodeProps (pre ++ g :: post) buf off t := by
  intro pre
  induction pre with
  | nil =>
    intro g post buf off t hg hlen
    simp only [sumSizes, Nat.add_zero] at hlen ⊢
    have hofflen : off ≤ buf.length := by omega
    have hexlen : off ≤ (buf.take off ++ buf.drop (off + g.Size)).length := by
      simp only [List.length_append, List.length_take, List.length_drop]
      omega
    have hdrop : (buf.take off ++ buf.drop (off + g.Size)).drop off
        = buf.drop (off + g.Size) := by
      rw [List.drop_append_of_le_length (by simp [List.length_take]; omega)]
      rw [List.drop_take]
      simp
    have hstep : decodeProps (g :: post) buf off t
        = decodeProps post buf (off + g.Size) t := by
      simp only [decodeProps]
      rw [if_pos (by omega : off + g.Size ≤ buf.length)]
      cases hgt : propGoTy g.Type' with
      | none =>
        simp only []
      | some ty =>
        simp only []
        rw [setFields_no_match g.Name ty _ t hg]
    simp only [List.nil_append]
    rw [hstep]
    exact decode_congr_drop post _ buf off (off + g.Size) t hdrop hexlen (by omega)
  | cons p pre2 ih =>
    intro g post buf off t hg hlen
    simp only [sumSizes] at hlen ⊢
    have hE : off + (p.Size + sumSizes pre2) + g.Size ≤ buf.length := by omega
    simp only [List.cons_append]
    unfold decodeProps
    have hbR : off + p.Size ≤ buf.length := by omega
    have hexlen : (buf.take (off + (p.Size + sumSizes pre2))
        ++ buf.drop (off + (p.Size + sumSizes pre2) + g.Size)).length
        = buf.length - g.Size := by
      simp only [List.length_append, List.length_take, List.length_drop]
      omega
    have hbL : off + p.Size ≤ (buf.take (off + (p.Size + sumSizes pre2))
        ++ buf.drop (off + (p.Size + sumSizes pre2) + g.Size)).length := by
      rw [hexlen]
      omega
    rw [if_pos hbR, if_pos hbL]
    simp only []
    have hbytes : ((buf.take (off + (p.Size + sumSizes pre2))
          ++ buf.drop (off + (p.Size + sumSizes pre2) + g.Size)).drop off).take p.Size
        = (buf.drop off).take p.Size := by
      rw [List.drop_append_of_le_length (by simp [List.length_take]; omega)]
      rw [List.drop_take]
      rw [List.take_append_of_le_length (by simp [List.length_take, List.length_drop]; omega)]
      rw [List.take_take]
      congr 1
      omega
    rw [hbytes]
    cases hgt : propGoTy p.Type' with
    | none =>
      simp only []
      have := ih g post buf (off + p.Size) t hg (by omega)
      rw [show off + p.Size + sumSizes pre2 = off + (p.Size + sumSizes pre2) from by omega] at this
      exact this
    | some ty =>
      simp only []
      cases hs : setFields t p.Name ty
          (leVal ((buf.drop off).take p.Size) % 2 ^ (8 * ty.width)) with
      | none => rfl
      | some u =>
        have hgu : ∀ f ∈ u, f.tag ≠ g.Name := by
          obtain ⟨_, humap⟩ := setFields_some_inv _ _ _ t u hs
          rw [humap]
          intro f hf
          obtain ⟨f0, hf0, rfl⟩ := List.mem_map.mp hf
          by_cases h5 : f0.tag = p.Name
          · have h6 := hg f0 hf0
            rw [h5] at h6
            simp [h5, h6]
          · simp [h5, hg f0 hf0]
        have := ih g post buf (off + p.Size) u hgu (by omega)
        rw [show off + p.Size + sumSizes pre2 = off + (p.Size + sumSizes pre2) from by
          omega] at this
        exact this

/-- Claim C7: a property bound by no target field is skipped but its
bytes still advance the running offset — decoding with the unmatched
property present equals decoding with the property removed and its
byte range excised from the buffer (so all matched properties land on
their correct bytes) — and a target field bound by no property at all
keeps its prior value. -/
theorem c7_unmatched_skip_and_frame (pre post : List property) (g : property)
    (buf : List Nat) (t : List field)
    (hg : ∀ f ∈ t, f.tag ≠ g.Name)
    (hlen : sumSizes pre + g.Size ≤ buf.length) :
    decodeProps (pre ++ post)
        (buf.take (sumSizes pre) ++ buf.drop (sumSizes pre + g.Size)) 0 t
      = decodeProps (pre ++ g :: post) buf 0 t
    ∧ ∀ t2, decodeProps (pre ++ g :: post) buf 0 t = some t2 →
        ∀ i (hi : i < t.length),
          (∀ p ∈ pre ++ g :: post, p.Name ≠ t[i].tag) →
          t2[i]? = some t[i] := by
  constructor
  · have hs := decode_skip_unmatched pre g post buf 0 t hg (by omega)
    simpa using hs
  · intro t2 hdec i hi hnone
    have hchar := decodeProps_char _ _ _ _ _ hdec
    have hti : t[i]? = some t[i] := List.getElem?_eq_getElem hi
    rw [hchar, List.getElem?_map, hti]
    simp only [Option.map_some']
    have hnm : lastMatch (pre ++ g :: post) 0 buf t[i].tag = none := by
      have hiso := lastMatch_isSome t[i].tag (pre ++ g :: post) 0 buf
      have hfalse : hasMatch (pre ++ g :: post) t[i].tag = false := by
        unfold hasMatch
        rw [List.any_eq_false]
        intro p hp
        simp [hnone p hp]
      rw [hfalse] at hiso
      exact Option.not_isSome_iff_eq_none.mp (by simp [hiso])
    simp [hnm]

/-- Claim C7, witness: a record `red, green, blue` decoded into a target
binding only `red` and `blue` equals the decode of `red, blue` over the
buffer with the green byte excised. -/
theorem c7_witness :
    decodeProps ([redProp] ++ [blueProp]) [10, 30] 0 rbTarget
      = decodeProps ([redProp] ++ greenProp :: [blueProp]) [10, 20, 30] 0 rbTarget :=
  (c7_unmatched_skip_and_frame [redProp] [blueProp] greenProp [10, 20, 30] rbTarget
    (by decide) (by decide)).1

theorem Seek_nat (r : elementReader) (k : Nat) (h : k ≤ r.elem.Count) :
    r.Seek (k : Int) = some { r with pos := k } := by
  unfold elementReader.Seek
  rw [if_neg]
  · simp
  · push_neg
    refine ⟨by omega, by omega⟩

theorem ReadAt_ok (file : List Nat) (r : elementReader) (t0 s0 : List field) (k : Nat)
    (hk : k < r.elem.Count)
    (hrn : elementReader.ReadNext file { r with pos := k } t0
      = ({ r with pos := k + 1 }, s0, .ok (k + 1))) :
    r.ReadAt file (k : Int) t0 = (r, s0, .ok ()) := by
  unfold elementReader.ReadAt
  rw [Seek_nat r k (le_of_lt hk)]
  simp only []
  rw [hrn]

theorem seqs_eq (file : List Nat) (r : elementReader) (t0 : List field) :
    ∀ (m k : Nat) (t : List field),
      k + m ≤ r.elem.Count →
      (∀ i, k ≤ i → i < k + m → r.offset + i * r.elem.PointByteSize < file.length) →
      compat r.elem.Properties t0 →
      (∀ buf, decodeProps r.elem.Properties buf 0 t
        = decodeProps r.elem.Properties buf 0 t0) →
      readNextSeq file { r with pos := k } t m = readAtSeq file t0 r k m
      ∧ (readNextSeq file { r with pos := k } t m).isSome = true := by
  intro m
  induction m with
  | zero =>
    intro k t _ _ _ _
    exact ⟨rfl, rfl⟩
  | succ m ih =>
    intro k t hcount havail hcompat habs
    have hk : k < r.elem.Count := by omega
    have hav : r.offset + k * r.elem.PointByteSize < file.length :=
      havail k le_rfl (by omega)
    have hbuflen : (recordBuf file (r.offset + k * r.elem.PointByteSize)
        r.elem.PointByteSize).length = r.elem.PointByteSize :=
      recordBuf_length file _ _
    have hsome0 : (decodeProps r.elem.Properties
        (recordBuf file (r.offset + k * r.elem.PointByteSize) r.elem.PointByteSize)
        0 t0).isSome = true := by
      refine decode_some_of_compat r.elem.Properties _ 0 t0 hcompat ?_
      rw [hbuflen, pointByteSize_eq]
      omega
    obtain ⟨s0, hs0⟩ := Option.isSome_iff_exists.mp hsome0
    have hst : decodeProps r.elem.Properties
        (recordBuf file (r.offset + k * r.elem.PointByteSize) r.elem.PointByteSize)
        0 t = some s0 := by
      rw [habs]
      exact hs0
    have hrn : elementReader.ReadNext file { r with pos := k } t
        = ({ r with pos := k + 1 }, s0, .ok (k + 1)) :=
      ReadNext_ok file { r with pos := k } t s0 hk hav hst
    have hrn0 : elementReader.ReadNext file { r with pos := k } t0
        = ({ r with pos := k + 1 }, s0, .ok (k + 1)) :=
      ReadNext_ok file { r with pos := k } t0 s0 hk hav hs0
    have hra := ReadAt_ok file r t0 s0 k hk hrn0
    have habs2 : ∀ buf, decodeProps r.elem.Properties buf 0 s0
        = decodeProps r.elem.Properties buf 0 t0 := by
      intro buf
      exact decode_absorb r.elem.Properties _ buf 0 0 t0 s0 hs0
    obtain ⟨ihEq, ihSome⟩ := ih (k + 1) s0 (by omega)
      (fun i h1 h2 => havail i (by omega) (by omega)) hcompat habs2
    constructor
    · simp only [readNextSeq, readAtSeq]
      rw [hrn, hra]
      simp only []
      rw [ihEq]
    · simp only [readNextSeq]
      rw [hrn]
      simp only []
      obtain ⟨l, hl⟩ := Option.isSome_iff_exists.mp ihSome
      rw [hl]
      rfl

/-- Claim C6: after `Reset`, reading all `n` records sequentially with
one reused target yields exactly the same sequence of decoded targets
as `ReadAt` at positions `0 .. n-1` handing a fresh copy of the same
target to each call, and every read succeeds. -/
theorem c6_reset_seq_eq_readat (file : List Nat) (r r0 : elementReader)
    (t0 : List field) (n : Nat)
    (hn : r.elem.Count = n)
    (hcompat : compat r.elem.Properties t0)
    (havail : ∀ i, i < n → r.offset + i * r.elem.PointByteSize < file.length)
    (hreset : r.Reset = some r0) :
    readNextSeq file r0 t0 n = readAtSeq file t0 r 0 n
    ∧ (readNextSeq file r0 t0 n).isSome = true := by
  have h0 : r.Seek ((0 : Nat) : Int) = some { r with pos := 0 } :=
    Seek_nat r 0 (Nat.zero_le _)
  have hr0 : r0 = { r with pos := 0 } := by
    unfold elementReader.Reset at hreset
    rw [show ((0 : Nat) : Int) = (0 : Int) from rfl] at h0
    rw [h0] at hreset
    have h2 := Option.some.injEq _ _ ▸ hreset
    simpa using h2.symm
  subst hr0
  exact seqs_eq file r t0 n 0 t0 (by omega)
    (fun i _ h2 => havail i (by omega)) hcompat (fun buf => rfl)

/-- Claim C6, witness: two 8-byte float records read both ways over a
16-byte file. -/
theorem c6_witness :
    readNextSeq seqFile { pos := 0, offset := 0, elem := vtxElem } seqTarget 2
      = readAtSeq seqFile seqTarget seqReader 0 2
    ∧ (readNextSeq seqFile { pos := 0, offset := 0, elem := vtxElem } seqTarget 2).isSome
      = true :=
  c6_reset_seq_eq_readat seqFile seqReader { pos := 0, offset := 0, elem := vtxElem }
    seqTarget 2 (by decide) (by unfold compat; decide)
    (by intro i hi; interval_cases i <;> decide) (by decide)
